import Mathlib

/-!
Verification of the persona-driven document intelligence pipeline
(`section_ranker.py`, `subsection_analyzer.py`, `keyword_analyzer.py`).

Strings are modelled as `List Char` (ASCII fragment of Python `str`);
float arithmetic is modelled exactly over `ℚ` (the claims under study only
involve values where IEEE rounding is exact); Python dicts are modelled as
insertion-ordered association lists.
-/

namespace DocIntel

/-- Python whitespace characters (ASCII fragment of `str.isspace` / regex `\s`). -/
def isSpace (c : Char) : Bool :=
  c = ' ' ∨ c = '\t' ∨ c = '\n' ∨ c = '\r' ∨ c = '\x0b' ∨ c = '\x0c'

/-- ASCII decimal digit (fragment of regex `\d`). -/
def isDigit (c : Char) : Bool := '0' ≤ c ∧ c ≤ '9'

/-- ASCII uppercase letter (regex `[A-Z]`). -/
def isUpperAZ (c : Char) : Bool := 'A' ≤ c ∧ c ≤ 'Z'

/-- ASCII lowercase letter (regex `[a-z]`). -/
def isLowerAZ (c : Char) : Bool := 'a' ≤ c ∧ c ≤ 'z'

/-- Sentence-terminator class of the regex `[.!?]`. -/
def isSentinel (c : Char) : Bool := c = '.' ∨ c = '!' ∨ c = '?'

/-- Python `str.lower()` on the ASCII fragment, character-wise. -/
def lowerStr (s : List Char) : List Char := s.map Char.toLower

/-- Python `str.strip()`: drop leading and trailing whitespace. -/
def strip (s : List Char) : List Char :=
  (((s.dropWhile isSpace).reverse.dropWhile isSpace)).reverse

/-- Fueled scanner for Python `str.count(sub)` with a non-empty needle:
non-overlapping occurrences, scanning left to right. -/
def countSubAux (sub : List Char) : Nat → List Char → Nat
  | 0, _ => 0
  | f + 1, s =>
    if sub.isPrefixOf s then 1 + countSubAux sub f (s.drop sub.length)
    else
      match s with
      | [] => 0
      | _ :: t => countSubAux sub f t

/-- Python `str.count(sub)`: number of non-overlapping occurrences of `sub`,
scanning left to right (`len(s)+1` when `sub` is empty, as in Python). -/
def countSub (s sub : List Char) : Nat :=
  if sub = [] then s.length + 1 else countSubAux sub (s.length + 1) s

/-- Python substring containment `sub in s` (`str.__contains__`). -/
def isSubstr (sub s : List Char) : Bool :=
  s.tails.any (fun t => sub.isPrefixOf t)

/-- Python `dict.get(k, d)` over an insertion-ordered association list. -/
def lookupD (w : List (List Char × Nat)) (k : List Char) (d : Nat) : Nat :=
  match w with
  | [] => d
  | (k', v) :: t => if k' = k then v else lookupD t k d

/-- Insertion step of the stable descending sort: `x` (an element occurring
earlier in the original list than everything in `l`) is placed before the
first element whose key is at most `key x`, hence before equal-key
elements. -/
def insertDesc {α β : Type} [LinearOrder β] (key : α → β) (x : α) : List α → List α
  | [] => [x]
  | y :: ys => if key y ≤ key x then x :: y :: ys else y :: insertDesc key x ys

/-- Python `list.sort(key=key, reverse=True)`: stable descending sort by
`key`.  `list.sort` is documented stable, and the stable descending sort of a
list is computed by this insertion sort. -/
def sortDescBy {α β : Type} [LinearOrder β] (key : α → β) : List α → List α
  | [] => []
  | x :: xs => insertDesc key x (sortDescBy key xs)

/-- Round-half-to-even on `ℚ` (Python `round` to integer on exact values). -/
def roundHalfEven (q : ℚ) : ℤ :=
  let f := ⌊q⌋
  if q - f < 1/2 then f
  else if q - f > 1/2 then f + 1
  else if Even f then f else f + 1

/-- Python `round(x, 3)`: round to 3 decimal places. -/
def round3 (q : ℚ) : ℚ := (roundHalfEven (q * 1000) : ℚ) / 1000

/-- Generic left-to-right scanner for `re.split`: at each position, `m c rest`
returns the rest of the input after a separator match starting at `c`, or
`none`.  Fuel is consumed one unit per inspected position. -/
def reSplitGo (m : Char → List Char → Option (List Char)) :
    Nat → List Char → List Char → List (List Char)
  | _, [], acc => [acc.reverse]
  | 0, s, acc => [acc.reverse ++ s]
  | f + 1, c :: rest, acc =>
    match m c rest with
    | some rest' => acc.reverse :: reSplitGo m f rest' []
    | none => reSplitGo m f rest (c :: acc)

/-- Position (in `l`) of the last newline character, if any. -/
def lastNLIdx (l : List Char) : Option Nat :=
  ((l.enum.filter (fun p => p.2 = '\n')).map (fun p => p.1)).getLast?

/-- Matcher for the paragraph separator regex `\n\s*\n` at the current
position: a newline, then greedy `\s*` backtracked to end at the last
newline of the following whitespace run. -/
def matchParaSep (c : Char) (rest : List Char) : Option (List Char) :=
  if c = '\n' then
    match lastNLIdx (rest.takeWhile isSpace) with
    | some k => some (rest.drop (k + 1))
    | none => none
  else none

/-- Matcher for the sentence separator regex `[.!?]+\s+` at the current
position: a maximal non-empty run of `.`/`!`/`?`, then a non-empty maximal
whitespace run. -/
def matchSentSep (c : Char) (rest : List Char) : Option (List Char) :=
  if isSentinel c then
    let afterSentinels := rest.dropWhile isSentinel
    let ws := afterSentinels.takeWhile isSpace
    if ws = [] then none else some (afterSentinels.drop ws.length)
  else none

/-- Python `re.split(r'\n\s*\n', s)`. -/
def splitParas (s : List Char) : List (List Char) :=
  reSplitGo matchParaSep s.length s []

/-- Python `re.split(r'[.!?]+\s+', s)`. -/
def splitSent (s : List Char) : List (List Char) :=
  reSplitGo matchSentSep s.length s []

/-- Python `str.split(sep)` for a single-character separator. -/
def splitOnChar (sep : Char) : List Char → List (List Char)
  | [] => [[]]
  | c :: t =>
    let r := splitOnChar sep t
    if c = sep then [] :: r
    else
      match r with
      | p :: ps => (c :: p) :: ps
      | [] => [[c]]

/-- Matcher for the regex `^\d+\.?\s+[A-Z]` (`re.match`, prefix only):
digits, an optional dot, some whitespace, then an uppercase letter. -/
def isHeaderPat1 (s : List Char) : Bool :=
  let ds := s.takeWhile isDigit
  if ds = [] then false
  else
    let r1 := s.drop ds.length
    let r2 := match r1 with
              | '.' :: t => t
              | _ => r1
    let ws := r2.takeWhile isSpace
    if ws = [] then false
    else
      match r2.drop ws.length with
      | c :: _ => isUpperAZ c
      | [] => false

/-- Matcher for the regex `^[A-Z][A-Z\s]{2,}$`: an uppercase letter followed
by at least two characters that are uppercase or whitespace, up to the end. -/
def isHeaderPat2 (s : List Char) : Bool :=
  match s with
  | c :: rest => isUpperAZ c ∧ 2 ≤ rest.length ∧ rest.all (fun d => isUpperAZ d ∨ isSpace d)
  | [] => false

/-- Continuation of `isHeaderPat3`: zero or more groups `\s[A-Z][a-z]+`,
reaching the end of the string. -/
def pat3After : Nat → List Char → Bool
  | _, [] => true
  | 0, _ => false
  | f + 1, w :: t =>
    isSpace w &&
      match t with
      | c :: r =>
        isUpperAZ c &&
          (let ls := r.takeWhile isLowerAZ
           !ls.isEmpty && pat3After f (r.drop ls.length))
      | [] => false

/-- Matcher for the regex `^[A-Z][a-z]+(\s[A-Z][a-z]+)*$`. -/
def isHeaderPat3 (s : List Char) : Bool :=
  match s with
  | c :: rest =>
    isUpperAZ c &&
      (let ls := rest.takeWhile isLowerAZ
       !ls.isEmpty && pat3After rest.length (rest.drop ls.length))
  | [] => false

/-- Matcher for the regex `^\d+\.\d+\.?\s+[A-Z]`. -/
def isHeaderPat4 (s : List Char) : Bool :=
  let ds := s.takeWhile isDigit
  if ds = [] then false
  else
    match s.drop ds.length with
    | '.' :: r1 =>
      let ds2 := r1.takeWhile isDigit
      if ds2 = [] then false
      else
        let r2 := r1.drop ds2.length
        let r3 := match r2 with
                  | '.' :: t => t
                  | _ => r2
        let ws := r3.takeWhile isSpace
        if ws = [] then false
        else
          match r3.drop ws.length with
          | c :: _ => isUpperAZ c
          | [] => false
    | _ => false

/-- `SectionRanker._is_section_header`: texts longer than 200 characters are
never headers; otherwise the stripped text is matched against the four
header patterns. -/
def isSectionHeader (text : List Char) : Bool :=
  if 200 < text.length then false
  else
    let t := strip text
    isHeaderPat1 t ∨ isHeaderPat2 t ∨ isHeaderPat3 t ∨ isHeaderPat4 t

/-- Cased character in the ASCII fragment. -/
def isCased (c : Char) : Bool := isUpperAZ c ∨ isLowerAZ c

/-- Python `str.isupper()` (ASCII fragment): at least one cased character and
no lowercase character. -/
def pyIsUpper (s : List Char) : Bool :=
  s.any isCased && s.all (fun c => !(isLowerAZ c))

/-- Scanner for Python `str.istitle()`: uppercase letters may only follow
uncased characters, lowercase letters only cased ones. -/
def pyIsTitleGo : Bool → List Char → Bool
  | _, [] => true
  | prevCased, c :: t =>
    if isUpperAZ c then !prevCased && pyIsTitleGo true t
    else if isLowerAZ c then prevCased && pyIsTitleGo true t
    else pyIsTitleGo false t

/-- Python `str.istitle()` (ASCII fragment). -/
def pyIsTitle (s : List Char) : Bool := s.any isCased && pyIsTitleGo false s

/-- One candidate line of `SectionRanker._extract_section_title`: stripped,
non-empty, shorter than 100 characters, and title-looking. -/
def titleCandidate (line : List Char) : Option (List Char) :=
  let l := strip line
  if ¬ l = [] ∧ l.length < 100 ∧ (pyIsUpper l ∨ pyIsTitle l ∨ isHeaderPat1 l) then some l
  else none

/-- `SectionRanker._extract_section_title`: first title-looking line among the
first three lines, else the first sentence (truncated to 100 characters). -/
def extractSectionTitle (sectionText : List Char) : List Char :=
  match ((splitOnChar '\n' sectionText).take 3).findSome? titleCandidate with
  | some t => t
  | none =>
    let first := strip (sectionText.takeWhile (fun c => !(isSentinel c)))
    if 100 < first.length then first.take 100 ++ ['.', '.', '.']
    else first

/-- Paragraph-accumulation loop of `SectionRanker._split_into_sections`
(state: paragraphs still to process, sections built, current section). -/
def buildSectionsGo : List (List Char) → List (List Char) → List Char → List (List Char)
  | [], sections, current =>
    if current = [] then sections else sections ++ [strip current]
  | p :: ps, sections, current =>
    let q := strip p
    if q = [] then buildSectionsGo ps sections current
    else if isSectionHeader q then
      buildSectionsGo ps (if current = [] then sections else sections ++ [strip current])
        (q ++ ['\n', '\n'])
    else buildSectionsGo ps sections (current ++ q ++ ['\n', '\n'])

/-- Chunking loop of `SectionRanker._split_by_length`. -/
def splitByLengthGo (target : Nat) :
    List (List Char) → List (List Char) → List Char → List (List Char)
  | [], sections, current =>
    if current = [] then sections else sections ++ [strip current]
  | sent :: rest, sections, current =>
    if target < current.length + sent.length ∧ ¬ current = [] then
      splitByLengthGo target rest (sections ++ [strip current]) (sent ++ ['.', ' '])
    else splitByLengthGo target rest sections (current ++ sent ++ ['.', ' '])

/-- `SectionRanker._split_by_length`: split on `[.!?]+\s+`, then chunk into
pieces of about `target` characters. -/
def splitByLength (text : List Char) (target : Nat := 800) : List (List Char) :=
  splitByLengthGo target (splitSent text) [] []

/-- `SectionRanker._split_into_sections`: split on paragraph breaks, group
paragraphs under detected headers, fall back to length-based splitting when
at most one section was found on a page of more than 1000 characters, and
keep at most `max_sections_per_page = 5` sections. -/
def splitIntoSections (pageText : List Char) : List (List Char) :=
  if pageText = [] then []
  else
    let sections := buildSectionsGo (splitParas pageText) [] []
    let sections2 :=
      if sections.length ≤ 1 ∧ 1000 < pageText.length then splitByLength pageText
      else sections
    sections2.take 5

/-- `SectionRanker._calculate_relevance_score`: sum of
`count * weight * len(keyword)` over keywords occurring in the lower-cased
section text, normalized per 1000 characters and rounded to 3 decimals.
Absent keywords default to weight 1 (`keyword_weights.get(keyword, 1)`). -/
def calcRelevanceScore (sectionText : List Char) (keywords : List (List Char))
    (keywordWeights : List (List Char × Nat)) : ℚ :=
  if sectionText = [] ∨ keywords = [] then 0
  else
    let textLower := lowerStr sectionText
    let score : ℚ := keywords.foldl
      (fun acc keyword =>
        let count := countSub textLower (lowerStr keyword)
        if 0 < count then
          acc + (count : ℚ) * (lookupD keywordWeights keyword 1 : ℚ) * (keyword.length : ℚ)
        else acc) 0
    round3 (score / ((sectionText.length : ℚ) / 1000))

/-- Result of `KeywordAnalyzer.extract_keywords` (the four entries of the
returned dict). -/
structure KeywordsData where
  persona_keywords : List (List Char)
  job_keywords : List (List Char)
  combined_keywords : List (List Char)
  keyword_weights : List (List Char × Nat)

/-- One entry of the `all_sections` list built by
`SectionRanker.rank_sections` (a Python dict with fixed keys). -/
structure Section where
  document : List Char
  page_number : Nat
  section_index : Nat
  section_title : List Char
  section_text : List Char
  relevance_score : ℚ
  importance_rank : Nat
deriving DecidableEq

/-- Inner loop of `SectionRanker.rank_sections` over the sections of one
page: sections shorter than `min_section_length = 100` are skipped, the rest
are scored and given a title (`importance_rank` is initialised to 0, Python's
placeholder before sorting). -/
def sectionsOfPage (kws : KeywordsData) (filename : List Char) (pageNum : Nat)
    (texts : List (List Char)) : List Section :=
  texts.enum.filterMap (fun p =>
    if p.2.length < 100 then none
    else some {
      document := filename
      page_number := pageNum
      section_index := p.1
      section_title := extractSectionTitle p.2
      section_text := p.2
      relevance_score := calcRelevanceScore p.2 kws.combined_keywords kws.keyword_weights
      importance_rank := 0 })

/-- The `all_sections` list of `SectionRanker.rank_sections` before sorting:
documents in dict insertion order, pages enumerated from 1, sections in
in-page order. -/
def collectSections (extractedTexts : List (List Char × List (List Char)))
    (kws : KeywordsData) : List Section :=
  extractedTexts.flatMap (fun doc =>
    doc.2.enum.flatMap (fun pg =>
      sectionsOfPage kws doc.1 (pg.1 + 1) (splitIntoSections pg.2)))

/-- Rank-assignment loop of `SectionRanker.rank_sections`
(`for rank, section in enumerate(all_sections, 1)`). -/
def assignRanks : Nat → List Section → List Section
  | _, [] => []
  | r, s :: rest => { s with importance_rank := r } :: assignRanks (r + 1) rest

/-- `SectionRanker.rank_sections`: collect, stable-sort by relevance score
descending, then assign 1-based importance ranks. -/
def rankSections (extractedTexts : List (List Char × List (List Char)))
    (kws : KeywordsData) : List Section :=
  assignRanks 1 (sortDescBy (fun s => s.relevance_score) (collectSections extractedTexts kws))

/-- Python `collections.Counter` over a list, as an insertion-ordered
association list of counts. -/
def counterItems (l : List (List Char)) : List (List Char × Nat) :=
  l.foldl (fun acc k =>
    if acc.any (fun p => p.1 = k) then
      acc.map (fun p => if p.1 = k then (p.1, p.2 + 1) else p)
    else acc ++ [(k, 1)]) []

/-- `KeywordAnalyzer._extract_from_text`.  The guard for empty text
(`if not text: return []`) is taken from the source; the body for non-empty
text (NLTK tokenization, POS tagging, and `list(set(keywords))`
deduplication) depends on the external NLTK library and on Python set
iteration order, so it is abstracted as an arbitrary `oracle`. -/
def extractFromText (oracle : List Char → List (List Char)) (text : List Char) :
    List (List Char) :=
  if text = [] then [] else oracle text

/-- `KeywordAnalyzer.extract_keywords`: persona keywords then task keywords,
counted with a `Counter`; `combined_keywords` is `most_common(20)` (count
descending, ties by first insertion, i.e. a stable descending sort of the
insertion-ordered items). -/
def extractKeywords (oracle : List Char → List (List Char)) (persona job : List Char) :
    KeywordsData :=
  let pk := extractFromText oracle persona
  let jk := extractFromText oracle job
  let w := counterItems (pk ++ jk)
  { persona_keywords := pk
    job_keywords := jk
    combined_keywords := ((sortDescBy (fun p => p.2) w).take 20).map (fun p => p.1)
    keyword_weights := w }

/-- `SubsectionAnalyzer._split_sentences`: split on `[.!?]+\s+`, strip, and
keep fragments longer than 20 characters. -/
def splitSentences (text : List Char) : List (List Char) :=
  ((splitSent text).map strip).filter (fun s => 20 < s.length)

/-- `SubsectionAnalyzer._score_sentence`: keyword-length sum over keywords
contained (case-insensitively) in the sentence, clustering bonus
`1 + 0.2 * keyword_count` when more than one keyword matches, normalized per
100 characters of sentence. -/
def scoreSentence (sentence : List Char) (keywords : List (List Char)) : ℚ :=
  if sentence = [] ∨ keywords = [] then 0
  else
    let sl := lowerStr sentence
    let base : ℚ := keywords.foldl
      (fun acc k => if isSubstr (lowerStr k) sl then acc + (k.length : ℚ) else acc) 0
    let kc := (keywords.filter (fun k => isSubstr (lowerStr k) sl)).length
    let score := if 1 < kc then base * (1 + (kc : ℚ) * (1/5)) else base
    score / ((sentence.length : ℚ) / 100)

/-- Python `' '.join`. -/
def joinSp (l : List (List Char)) : List Char := List.intercalate [' '] l

/-- `SubsectionAnalyzer._generate_extractive_summary`: short texts (at most
`summary_sentences = 3` sentences) are returned unchanged; otherwise the
scored sentences are stable-sorted by score descending, the top 3 sentence
strings are selected, and every original sentence whose string is among the
selected ones is kept, in original order, joined by single spaces. -/
def genSummary (text : List Char) (keywords : List (List Char)) : List Char :=
  if text = [] then []
  else
    let sentences := splitSentences text
    if sentences.length ≤ 3 then text
    else
      let ranked := sortDescBy (fun p => p.2)
        (sentences.map (fun s => (s, scoreSentence s keywords)))
      let selected := (ranked.take 3).map (fun p => p.1)
      joinSp (sentences.filter (fun s => decide (s ∈ selected)))

/-- Modelled from the spec: the summary claimed by the specification —
select the 3 highest-scoring sentence occurrences (ties broken by original
sentence order, via a stable descending sort of the indexed sentences),
re-order the selected occurrences to their original position, and join with
single spaces. -/
def specSummary (text : List Char) (keywords : List (List Char)) : List Char :=
  let sentences := splitSentences text
  let top := (sortDescBy (fun p => scoreSentence p.2 keywords) sentences.enum).take 3
  joinSp ((sentences.enum.filter (fun p => decide (p ∈ top))).map (fun p => p.2))

/-- Modelled from the spec: the sentence score claimed by claim C6 — sum of
the character lengths of matched keywords, times `1 + 0.2 * matchedCount`
when more than one keyword matches, with no further factor. -/
def specSentenceScore (sentence : List Char) (keywords : List (List Char)) : ℚ :=
  let sl := lowerStr sentence
  let base : ℚ := keywords.foldl
    (fun acc k => if isSubstr (lowerStr k) sl then acc + (k.length : ℚ) else acc) 0
  let kc := (keywords.filter (fun k => isSubstr (lowerStr k) sl)).length
  if 1 < kc then base * (1 + (kc : ℚ) * (1/5)) else base

/-- Forget the `importance_rank` field (the only field that rank
assignment modifies). -/
def eraseRank (s : Section) : Section := { s with importance_rank := 0 }

section SortLemmas

variable {α β γ : Type} [LinearOrder β]

theorem insertDesc_perm (key : α → β) (x : α) (l : List α) :
    List.Perm (insertDesc key x l) (x :: l) := by
  induction l with
  | nil => exact List.Perm.refl _
  | cons y ys ih =>
    by_cases h : key y ≤ key x
    · simp only [insertDesc, if_pos h]
      exact List.Perm.refl _
    · simp only [insertDesc, if_neg h]
      exact (ih.cons y).trans (List.Perm.swap x y ys)

theorem sortDescBy_perm (key : α → β) (l : List α) :
    List.Perm (sortDescBy key l) l := by
  induction l with
  | nil => exact List.Perm.refl _
  | cons x xs ih => exact (insertDesc_perm key x (sortDescBy key xs)).trans (ih.cons x)

theorem mem_insertDesc (key : α → β) (x a : α) (l : List α) :
    a ∈ insertDesc key x l ↔ a = x ∨ a ∈ l := by
  rw [(insertDesc_perm key x l).mem_iff, List.mem_cons]

theorem insertDesc_pairwise (key : α → β) (x : α) (l : List α)
    (h : l.Pairwise (fun a b => key b ≤ key a)) :
    (insertDesc key x l).Pairwise (fun a b => key b ≤ key a) := by
  induction l with
  | nil =>
    simp only [insertDesc]
    exact List.pairwise_singleton _ x
  | cons y ys ih =>
    rw [List.pairwise_cons] at h
    by_cases hle : key y ≤ key x
    · rw [insertDesc, if_pos hle, List.pairwise_cons]
      refine ⟨fun b hb => ?_, List.pairwise_cons.mpr h⟩
      rcases List.mem_cons.mp hb with hb | hb
      · exact hb ▸ hle
      · exact (h.1 b hb).trans hle
    · rw [insertDesc, if_neg hle, List.pairwise_cons]
      refine ⟨fun b hb => ?_, ih h.2⟩
      rcases (mem_insertDesc key x b ys).mp hb with hb | hb
      · exact hb ▸ le_of_lt (lt_of_not_le hle)
      · exact h.1 b hb

theorem filter_insertDesc_of_eq (key : α → β) (q : β) (x : α) (l : List α)
    (hx : key x = q) :
    (insertDesc key x l).filter (fun a => decide (key a = q))
      = x :: l.filter (fun a => decide (key a = q)) := by
  have hpx : (decide (key x = q)) = true := decide_eq_true hx
  induction l with
  | nil => simp [insertDesc, List.filter_cons, hpx]
  | cons y ys ih =>
    by_cases h : key y ≤ key x
    · simp only [insertDesc, if_pos h]
      simp [List.filter_cons, hpx]
    · have hyq : ¬ key y = q := fun hq => h (le_of_eq (hq.trans hx.symm))
      have hpy : (decide (key y = q)) = false := decide_eq_false hyq
      simp only [insertDesc, if_neg h]
      simpa [List.filter_cons, hpy] using ih

theorem filter_insertDesc_of_ne (key : α → β) (q : β) (x : α) (l : List α)
    (hx : ¬ key x = q) :
    (insertDesc key x l).filter (fun a => decide (key a = q))
      = l.filter (fun a => decide (key a = q)) := by
  have hpx : (decide (key x = q)) = false := decide_eq_false hx
  induction l with
  | nil => simp [insertDesc, List.filter_cons, hpx]
  | cons y ys ih =>
    by_cases h : key y ≤ key x
    · simp only [insertDesc, if_pos h]
      simp [List.filter_cons, hpx]
    · simp only [insertDesc, if_neg h, List.filter_cons]
      rw [ih]

theorem sortDescBy_filter_key (key : α → β) (q : β) (l : List α) :
    (sortDescBy key l).filter (fun a => decide (key a = q))
      = l.filter (fun a => decide (key a = q)) := by
  induction l with
  | nil => rfl
  | cons x xs ih =>
    by_cases hx : key x = q
    · rw [sortDescBy, filter_insertDesc_of_eq key q x _ hx, ih]
      simp [List.filter_cons, decide_eq_true hx]
    · rw [sortDescBy, filter_insertDesc_of_ne key q x _ hx, ih]
      simp [List.filter_cons, decide_eq_false hx]

theorem sortDescBy_pairwise (key : α → β) (l : List α) :
    (sortDescBy key l).Pairwise (fun a b => key b ≤ key a) := by
  induction l with
  | nil => exact List.Pairwise.nil
  | cons x xs ih => exact insertDesc_pairwise key x _ ih

theorem insertDesc_map (key₁ : α → β) (key₂ : γ → β) (g : α → γ)
    (hkey : ∀ a, key₂ (g a) = key₁ a) (x : α) (l : List α) :
    insertDesc key₂ (g x) (l.map g) = (insertDesc key₁ x l).map g := by
  induction l with
  | nil => rfl
  | cons y ys ih =>
    simp only [List.map_cons, insertDesc, hkey]
    by_cases h : key₁ y ≤ key₁ x
    · simp [h]
    · simp [h, ih]

theorem sortDescBy_map (key₁ : α → β) (key₂ : γ → β) (g : α → γ)
    (hkey : ∀ a, key₂ (g a) = key₁ a) (l : List α) :
    sortDescBy key₂ (l.map g) = (sortDescBy key₁ l).map g := by
  induction l with
  | nil => rfl
  | cons x xs ih =>
    simp only [List.map_cons, sortDescBy, ih]
    exact insertDesc_map key₁ key₂ g hkey x _

end SortLemmas

section RankLemmas

theorem assignRanks_map_eq {γ : Type} (f : Section → γ)
    (hf : ∀ (s : Section) (r : Nat), f { s with importance_rank := r } = f s) :
    ∀ (r : Nat) (l : List Section), (assignRanks r l).map f = l.map f := by
  intro r l
  induction l generalizing r with
  | nil => rfl
  | cons s t ih => simp [assignRanks, hf, ih]

theorem assignRanks_length (r : Nat) (l : List Section) :
    (assignRanks r l).length = l.length := by
  induction l generalizing r with
  | nil => rfl
  | cons s t ih => simp [assignRanks, ih]

theorem assignRanks_map_rank (r : Nat) (l : List Section) :
    (assignRanks r l).map (fun s => s.importance_rank) = List.range' r l.length := by
  induction l generalizing r with
  | nil => rfl
  | cons s t ih => simp [assignRanks, List.range'_succ, ih]

theorem filter_assignRanks (p : Section → Bool)
    (hp : ∀ (s : Section) (r : Nat), p { s with importance_rank := r } = p s) :
    ∀ (r : Nat) (l : List Section),
      ((assignRanks r l).filter p).map eraseRank = (l.filter p).map eraseRank := by
  intro r l
  induction l generalizing r with
  | nil => rfl
  | cons s t ih =>
    simp only [assignRanks, List.filter_cons, hp]
    by_cases hs : p s
    · simp only [hs, if_pos, List.map_cons, ih]
      rfl
    · simp only [hs]
      simp [ih]

theorem collectSections_text_len
    (texts : List (List Char × List (List Char))) (kws : KeywordsData) :
    ∀ s ∈ collectSections texts kws, 100 ≤ s.section_text.length := by
  intro s hs
  simp only [collectSections, List.mem_flatMap] at hs
  obtain ⟨doc, -, pg, -, hsec⟩ := hs
  simp only [sectionsOfPage, List.mem_filterMap] at hsec
  obtain ⟨p, -, hp⟩ := hsec
  by_cases h : p.2.length < 100
  · simp [h] at hp
  · rw [if_neg h, Option.some_inj] at hp
    rw [← hp]
    exact Nat.le_of_not_lt h

end RankLemmas

/-- C1: for every input mapping of documents to page-text sequences and
every keyword set, the list returned by `rank_sections` carries
`importance_rank` values that are exactly `1..N` (no gaps, no duplicates),
where `N` is the number of qualifying sections (length ≥ 100) in the
returned list — every returned section qualifies, so `N` is the length of
the list. -/
theorem rankSections_importance_ranks
    (texts : List (List Char × List (List Char))) (kws : KeywordsData) :
    (rankSections texts kws).map (fun s => s.importance_rank)
        = List.range' 1 (rankSections texts kws).length
      ∧ ∀ s ∈ rankSections texts kws, 100 ≤ s.section_text.length := by
  constructor
  · rw [rankSections, assignRanks_map_rank, assignRanks_length]
  · intro s hs
    rw [rankSections] at hs
    have hmem : s.section_text
        ∈ (assignRanks 1 (sortDescBy (fun s => s.relevance_score)
            (collectSections texts kws))).map (fun s => s.section_text) :=
      List.mem_map_of_mem _ hs
    rw [assignRanks_map_eq (fun s => s.section_text) (fun _ _ => rfl)] at hmem
    have hperm := (sortDescBy_perm (fun s : Section => s.relevance_score)
      (collectSections texts kws)).map (fun s => s.section_text)
    rw [hperm.mem_iff] at hmem
    obtain ⟨s₀, hs₀, htext⟩ := List.mem_map.mp hmem
    rw [← htext]
    exact collectSections_text_len texts kws s₀ hs₀

/-- C2: the list returned by `rank_sections` is sorted by non-increasing
relevance score, and (modulo the `importance_rank` field, which rank
assignment rewrites) the sections of any fixed score appear in exactly their
original discovery order — document insertion order, then page order, then
in-page section order, i.e. their order in the `all_sections` list
(`collectSections`): the descending sort is stable. -/
theorem rankSections_sorted_stable
    (texts : List (List Char × List (List Char))) (kws : KeywordsData) :
    ((rankSections texts kws).map (fun s => s.relevance_score)).Pairwise (fun a b => b ≤ a)
      ∧ ∀ q : ℚ,
        ((rankSections texts kws).filter (fun s => decide (s.relevance_score = q))).map
            eraseRank
          = ((collectSections texts kws).filter
              (fun s => decide (s.relevance_score = q))).map eraseRank := by
  constructor
  · rw [rankSections, assignRanks_map_eq (fun s => s.relevance_score) (fun _ _ => rfl),
      List.pairwise_map]
    exact sortDescBy_pairwise (fun s : Section => s.relevance_score) _
  · intro q
    rw [rankSections,
      filter_assignRanks (fun s => decide (s.relevance_score = q)) (fun _ _ => rfl),
      sortDescBy_filter_key (fun s : Section => s.relevance_score) q]

theorem roundHalfEven_intCast (m : ℤ) : roundHalfEven ((m : ℚ)) = m := by
  simp only [roundHalfEven, Int.floor_intCast, sub_self]
  rw [if_pos (by norm_num : (0 : ℚ) < 1/2)]

theorem round3_intCast (n : ℤ) : round3 ((n : ℚ)) = (n : ℚ) := by
  have h : ((n : ℚ)) * 1000 = ((n * 1000 : ℤ) : ℚ) := by push_cast; ring
  rw [round3, h, roundHalfEven_intCast]
  push_cast
  field_simp

/-- Keyword "drug discovery" (14 characters). -/
def ddKw : List Char := "drug discovery".toList

/-- Keyword "neural" (6 characters). -/
def neKw : List Char := "neural".toList

/-- C3: for every 2000-character section text whose lower-cased form contains
"drug discovery" exactly twice and "neural" exactly once, scored against
keywords `["drug discovery", "neural"]` with weights 3 and 1, the relevance
score is exactly `(2*3*14 + 1*1*6) / 2.0 = 45.0`: the divisor is
`len(text)/1000` (character count) and the rounding to 3 decimals is
exact. -/
theorem calcRelevanceScore_example (text : List Char)
    (hlen : text.length = 2000)
    (hdd : countSub (lowerStr text) ddKw = 2)
    (hne : countSub (lowerStr text) neKw = 1) :
    calcRelevanceScore text [ddKw, neKw] [(ddKw, 3), (neKw, 1)] = 45 := by
  have htext : ¬ text = [] := by
    intro h
    rw [h] at hlen
    exact absurd hlen (by decide)
  have hguard : ¬ (text = [] ∨ [ddKw, neKw] = ([] : List (List Char))) := by
    rintro (h | h)
    · exact htext h
    · exact absurd h (by decide)
  have hldd : lowerStr ddKw = ddKw := by decide
  have hlne : lowerStr neKw = neKw := by decide
  have hw1 : lookupD [(ddKw, 3), (neKw, 1)] ddKw 1 = 3 := by decide
  have hw2 : lookupD [(ddKw, 3), (neKw, 1)] neKw 1 = 1 := by decide
  have hd1 : ddKw.length = 14 := by decide
  have hd2 : neKw.length = 6 := by decide
  simp only [calcRelevanceScore, if_neg hguard, List.foldl_cons, List.foldl_nil]
  rw [hldd, hlne, hdd, hne, hw1, hw2, hd1, hd2, hlen]
  norm_num
  rw [show (45 : ℚ) = ((45 : ℤ) : ℚ) by norm_num, round3_intCast]

/-- Concrete 2000-character witness text for C3: "drug discovery" twice,
"neural" once, padded with 'x'. -/
def c3Text : List Char := ddKw ++ ddKw ++ neKw ++ List.replicate 1966 'x'

theorem c3Text_len : c3Text.length = 2000 := by
  have h1 : ddKw.length = 14 := by decide
  have h2 : neKw.length = 6 := by decide
  rw [c3Text, List.length_append, List.length_append, List.length_append,
    List.length_replicate, h1, h2]

set_option maxRecDepth 40000 in
theorem c3Text_count_dd : countSub (lowerStr c3Text) ddKw = 2 := by
  have hL : (lowerStr c3Text).length = 2000 := by
    rw [lowerStr, List.length_map]
    exact c3Text_len
  rw [countSub, if_neg (by decide), hL]
  decide

set_option maxRecDepth 40000 in
theorem c3Text_count_ne : countSub (lowerStr c3Text) neKw = 1 := by
  have hL : (lowerStr c3Text).length = 2000 := by
    rw [lowerStr, List.length_map]
    exact c3Text_len
  rw [countSub, if_neg (by decide), hL]
  decide

/-- Witness for C3 at `c3Text`. -/
theorem calcRelevanceScore_example_witness :
    c3Text.length = 2000
      ∧ countSub (lowerStr c3Text) ddKw = 2
      ∧ countSub (lowerStr c3Text) neKw = 1
      ∧ calcRelevanceScore c3Text [ddKw, neKw] [(ddKw, 3), (neKw, 1)] = 45 :=
  ⟨c3Text_len, c3Text_count_dd, c3Text_count_ne,
    calcRelevanceScore_example c3Text c3Text_len c3Text_count_dd c3Text_count_ne⟩

/-- C5: the summarizer is idempotent on already-short text: when the
sentence count after splitting on `[.!?]+\s+` and discarding fragments of at
most 20 characters is at most 3, the returned summary is the input text,
character for character. -/
theorem genSummary_short_id (text : List Char) (keywords : List (List Char))
    (h : (splitSentences text).length ≤ 3) :
    genSummary text keywords = text := by
  by_cases ht : text = []
  · subst ht
    rfl
  · simp [genSummary, ht, h]

/-- Concrete short text for the C5 witness (a single sentence). -/
def c5TextW : List Char := "this is a short sample text for the summarizer".toList

/-- Witness for C5 at `c5TextW`. -/
theorem genSummary_short_id_witness :
    (splitSentences c5TextW).length ≤ 3 ∧ genSummary c5TextW [] = c5TextW :=
  ⟨by decide, genSummary_short_id c5TextW [] (by decide)⟩

/-- Concrete 50-character sentence containing "neural" once, used for C6. -/
def c6Sentence : List Char := neKw ++ List.replicate 44 'x'

/-- C6 (counterexample): the sentence score of the code is NOT the bare
keyword-length sum with clustering bonus: for a 50-character sentence
containing "neural", the code returns `6 / (50/100) = 12`, not 6 — the code
normalizes by sentence length, contradicting the claim that no other factor
enters. -/
theorem scoreSentence_ne_spec :
    scoreSentence c6Sentence [neKw] ≠ specSentenceScore c6Sentence [neKw] := by
  have hg : ¬ (c6Sentence = [] ∨ [neKw] = ([] : List (List Char))) := by decide
  have hsub : isSubstr (lowerStr neKw) (lowerStr c6Sentence) = true := by decide
  have hflt : ([neKw].filter
      (fun k => isSubstr (lowerStr k) (lowerStr c6Sentence))).length = 1 := by decide
  have hlen : c6Sentence.length = 50 := by decide
  have hnk : neKw.length = 6 := by decide
  simp only [scoreSentence, specSentenceScore, if_neg hg, List.foldl_cons,
    List.foldl_nil, hsub, hflt, hlen, hnk]
  norm_num

/-- C6 (amended): for every non-empty sentence, the code's sentence score is
the claimed keyword-length sum with clustering bonus, additionally divided
by `len(sentence)/100` (score per 100 characters of sentence). -/
theorem scoreSentence_eq_spec_normalized (sentence : List Char)
    (keywords : List (List Char)) (hs : ¬ sentence = []) :
    scoreSentence sentence keywords
      = specSentenceScore sentence keywords * 100 / (sentence.length : ℚ) := by
  by_cases hk : keywords = []
  · subst hk
    simp [scoreSentence, specSentenceScore, hs]
  · simp only [scoreSentence, specSentenceScore, if_neg (not_or.mpr ⟨hs, hk⟩)]
    rw [div_div_eq_mul_div]

/-- Witness for the amended C6 at `c6Sentence`. -/
theorem scoreSentence_eq_spec_normalized_witness :
    ¬ c6Sentence = []
      ∧ scoreSentence c6Sentence [neKw]
          = specSentenceScore c6Sentence [neKw] * 100 / (c6Sentence.length : ℚ) :=
  ⟨by decide, scoreSentence_eq_spec_normalized c6Sentence _ (by decide)⟩

/-- C8: with empty persona and task strings, keyword extraction returns an
empty weights mapping and an empty ranked keyword list (for any behaviour of
the NLTK-dependent extraction body on non-empty text), and with those empty
outputs every section text scores exactly 0 — no stage fails on the empty
inputs. -/
theorem extractKeywords_empty_zero_scores
    (oracle : List Char → List (List Char)) :
    (extractKeywords oracle [] []).combined_keywords = []
      ∧ (extractKeywords oracle [] []).keyword_weights = []
      ∧ ∀ text : List Char,
          calcRelevanceScore text (extractKeywords oracle [] []).combined_keywords
            (extractKeywords oracle [] []).keyword_weights = 0 := by
  have h1 : (extractKeywords oracle [] []).combined_keywords = [] := rfl
  have h2 : (extractKeywords oracle [] []).keyword_weights = [] := rfl
  refine ⟨h1, h2, fun text => ?_⟩
  rw [h1, h2]
  simp [calcRelevanceScore]

theorem lookupD_eq_default (w : List (List Char × Nat)) (k : List Char) (d : Nat)
    (h : ∀ p ∈ w, ¬ p.1 = k) : lookupD w k d = d := by
  induction w with
  | nil => rfl
  | cons p t ih =>
    obtain ⟨k', v⟩ := p
    simp only [lookupD]
    rw [if_neg (h (k', v) (List.mem_cons_self _ _))]
    exact ih (fun p hp => h p (List.mem_cons_of_mem _ hp))

theorem lookupD_cons_absent (w : List (List Char × Nat)) (k k' : List Char)
    (h : ∀ p ∈ w, ¬ p.1 = k) :
    lookupD ((k, 1) :: w) k' 1 = lookupD w k' 1 := by
  simp only [lookupD]
  by_cases hk : k = k'
  · subst hk
    rw [if_pos rfl, lookupD_eq_default w k 1 h]
  · rw [if_neg hk]

theorem calcFold_congr (tl : List Char) (w1 w2 : List (List Char × Nat))
    (hw : ∀ k, lookupD w1 k 1 = lookupD w2 k 1) (kws : List (List Char)) :
    ∀ acc : ℚ,
      kws.foldl (fun acc keyword =>
        let count := countSub tl (lowerStr keyword)
        if 0 < count then
          acc + (count : ℚ) * (lookupD w1 keyword 1 : ℚ) * (keyword.length : ℚ)
        else acc) acc
      = kws.foldl (fun acc keyword =>
        let count := countSub tl (lowerStr keyword)
        if 0 < count then
          acc + (count : ℚ) * (lookupD w2 keyword 1 : ℚ) * (keyword.length : ℚ)
        else acc) acc := by
  induction kws with
  | nil => intro acc; rfl
  | cons k t ih =>
    intro acc
    simp only [List.foldl_cons]
    rw [hw k]
    exact ih _

/-- C10 (implicit): a keyword of the ranked list that is absent from the
keyword-weights mapping is scored with default weight 1
(`keyword_weights.get(keyword, 1)`): prepending an explicit weight-1 entry
for an absent keyword changes no relevance score, so such occurrences still
contribute `count * 1 * len(keyword)` rather than being ignored or failing
a lookup. -/
theorem calcRelevanceScore_default_weight (text : List Char)
    (kws : List (List Char)) (w : List (List Char × Nat)) (k : List Char)
    (hk : ∀ p ∈ w, ¬ p.1 = k) :
    calcRelevanceScore text kws ((k, 1) :: w) = calcRelevanceScore text kws w := by
  by_cases hg : text = [] ∨ kws = []
  · simp only [calcRelevanceScore, if_pos hg]
  · simp only [calcRelevanceScore, if_neg hg]
    rw [calcFold_congr (lowerStr text) ((k, 1) :: w) w
      (fun k' => lookupD_cons_absent w k k' hk) kws 0]

/-- Concrete text for the C10 witness. -/
def c10Text : List Char := "machine learning is widely used in industry".toList

/-- Witness for C10 at `c10Text` with keyword "learning" absent from the
weights mapping. -/
theorem calcRelevanceScore_default_weight_witness :
    (∀ p ∈ [("data".toList, (5 : Nat))], ¬ p.1 = "learning".toList)
      ∧ calcRelevanceScore c10Text ["learning".toList]
            (("learning".toList, 1) :: [("data".toList, 5)])
          = calcRelevanceScore c10Text ["learning".toList] [("data".toList, 5)] :=
  ⟨by decide,
    calcRelevanceScore_default_weight c10Text _ _ _ (by decide)⟩

theorem strip_all_space (s : List Char) (h : ∀ c ∈ s, isSpace c = true) :
    strip s = [] := by
  rw [strip, List.dropWhile_eq_nil_iff.mpr h]
  rfl

theorem reSplitGo_chars (m : Char → List Char → Option (List Char))
    (hm : ∀ c rest rest', m c rest = some rest' → rest' ⊆ rest) :
    ∀ (f : Nat) (s acc piece : List Char), piece ∈ reSplitGo m f s acc →
      ∀ c ∈ piece, c ∈ s ∨ c ∈ acc := by
  intro f
  induction f with
  | zero =>
    intro s acc piece hp c hc
    cases s with
    | nil =>
      rw [List.mem_singleton.mp hp] at hc
      exact Or.inr (List.mem_reverse.mp hc)
    | cons d t =>
      rw [List.mem_singleton.mp hp] at hc
      rcases List.mem_append.mp hc with hc | hc
      · exact Or.inr (List.mem_reverse.mp hc)
      · exact Or.inl hc
  | succ f ih =>
    intro s acc piece hp c hc
    cases s with
    | nil =>
      rw [List.mem_singleton.mp hp] at hc
      exact Or.inr (List.mem_reverse.mp hc)
    | cons d t =>
      have he : reSplitGo m (f + 1) (d :: t) acc = match m d t with
          | some rest' => acc.reverse :: reSplitGo m f rest' []
          | none => reSplitGo m f t (d :: acc) := rfl
      rw [he] at hp
      cases hmt : m d t with
      | some rest' =>
        rw [hmt] at hp
        rcases List.mem_cons.mp hp with hp | hp
        · rw [hp] at hc
          exact Or.inr (List.mem_reverse.mp hc)
        · rcases ih rest' [] piece hp c hc with h1 | h1
          · exact Or.inl (List.mem_cons_of_mem d (hm d t rest' hmt h1))
          · cases h1
      | none =>
        rw [hmt] at hp
        rcases ih t (d :: acc) piece hp c hc with h1 | h1
        · exact Or.inl (List.mem_cons_of_mem d h1)
        · rcases List.mem_cons.mp h1 with h1 | h1
          · exact Or.inl (h1 ▸ List.mem_cons_self d t)
          · exact Or.inr h1

theorem reSplitGo_no_match (m : Char → List Char → Option (List Char)) :
    ∀ (f : Nat) (s acc : List Char), s.length ≤ f →
      (∀ c rest, c ∈ s → m c rest = none) →
      reSplitGo m f s acc = [acc.reverse ++ s] := by
  intro f
  induction f with
  | zero =>
    intro s acc hlen hm
    rw [List.length_eq_zero.mp (Nat.le_zero.mp hlen)]
    simp [reSplitGo]
  | succ f ih =>
    intro s acc hlen hm
    cases s with
    | nil => simp [reSplitGo]
    | cons d t =>
      have he : reSplitGo m (f + 1) (d :: t) acc = match m d t with
          | some rest' => acc.reverse :: reSplitGo m f rest' []
          | none => reSplitGo m f t (d :: acc) := rfl
      rw [he, hm d t (List.mem_cons_self d t)]
      rw [ih t (d :: acc) (Nat.le_of_succ_le_succ hlen)
        (fun c rest hc => hm c rest (List.mem_cons_of_mem d hc))]
      simp

theorem buildSectionsGo_blank :
    ∀ (paras : List (List Char)) (sections : List (List Char)) (current : List Char),
      (∀ p ∈ paras, strip p = []) →
      buildSectionsGo paras sections current
        = if current = [] then sections else sections ++ [strip current] := by
  intro paras
  induction paras with
  | nil => intro sections current h; rfl
  | cons p ps ih =>
    intro sections current h
    have hp : strip p = [] := h p (List.mem_cons_self p ps)
    simp only [buildSectionsGo, hp, if_pos rfl]
    exact ih sections current (fun q hq => h q (List.mem_cons_of_mem p hq))

theorem isSpace_not_sentinel (c : Char) (h : isSpace c = true) :
    isSentinel c = false := by
  simp only [isSpace, decide_eq_true_eq] at h
  rcases h with h | h | h | h | h | h <;> subst h <;> decide

theorem matchSentSep_none_of_space (c : Char) (rest : List Char)
    (h : isSpace c = true) : matchSentSep c rest = none := by
  rw [matchSentSep, isSpace_not_sentinel c h]
  rfl

theorem matchParaSep_subset (c : Char) (rest rest' : List Char)
    (h : matchParaSep c rest = some rest') : rest' ⊆ rest := by
  rw [matchParaSep] at h
  by_cases hc : c = '\n'
  · rw [if_pos hc] at h
    cases hk : lastNLIdx (rest.takeWhile isSpace) with
    | some k =>
      rw [hk] at h
      rw [← Option.some_inj.mp h]
      exact List.drop_subset (k + 1) rest
    | none => rw [hk] at h; cases h
  · rw [if_neg hc] at h
    cases h

theorem dropWhile_append_of_all (p : Char → Bool) (l₁ l₂ : List Char)
    (h : ∀ c ∈ l₁, p c = true) :
    (l₁ ++ l₂).dropWhile p = l₂.dropWhile p := by
  rw [List.dropWhile_append, List.dropWhile_eq_nil_iff.mpr h]
  rfl

theorem strip_space_append_dot (page : List Char)
    (h : ∀ c ∈ page, isSpace c = true) :
    strip (page ++ ['.', ' ']) = ['.'] := by
  rw [strip, dropWhile_append_of_all isSpace page ['.', ' '] h]
  decide

theorem splitSent_all_space (page : List Char) (h : ∀ c ∈ page, isSpace c = true) :
    splitSent page = [page] := by
  rw [splitSent, reSplitGo_no_match matchSentSep page.length page [] (le_refl _)
    (fun c rest hc => matchSentSep_none_of_space c rest (h c hc))]
  rfl

theorem splitByLength_all_space (page : List Char)
    (h : ∀ c ∈ page, isSpace c = true) :
    splitByLength page = [['.']] := by
  rw [splitByLength, splitSent_all_space page h]
  simp only [splitByLengthGo, List.length_nil, Nat.zero_add, not_true_eq_false,
    and_false, if_false, List.nil_append]
  have hne : ¬ (page ++ ['.', ' '] = []) := by
    intro hcon
    have := congrArg List.length hcon
    simp at this
  rw [if_neg hne, strip_space_append_dot page h]

theorem splitIntoSections_whitespace_core (page : List Char)
    (h : ∀ c ∈ page, isSpace c = true) :
    splitIntoSections page = if page.length ≤ 1000 then [] else [['.']] := by
  by_cases hp : page = []
  · subst hp
    rfl
  · have hblank : ∀ p ∈ splitParas page, strip p = [] := by
      intro p hpmem
      apply strip_all_space
      intro c hc
      rcases reSplitGo_chars matchParaSep matchParaSep_subset page.length page [] p
        (by rwa [splitParas] at hpmem) c hc with h1 | h1
      · exact h c h1
      · cases h1
    have hparas : buildSectionsGo (splitParas page) [] [] = [] := by
      rw [buildSectionsGo_blank (splitParas page) [] [] hblank]
      rfl
    simp only [splitIntoSections, if_neg hp, hparas]
    by_cases hlen : 1000 < page.length
    · rw [if_pos ⟨by simp, hlen⟩, splitByLength_all_space page h,
        if_neg (not_le.mpr hlen)]
      rfl
    · rw [if_neg (fun hand => hlen hand.2), if_pos (not_lt.mp hlen)]
      rfl

/-- C9 (amended): a page that is empty or all-whitespace yields zero
sections when its length is at most 1000 (this includes every empty page);
but an all-whitespace page longer than 1000 characters triggers the
fixed-length fallback, which emits exactly one section consisting of the
single character "." (the separator glue re-appended by
`_split_by_length`). -/
theorem splitIntoSections_whitespace (page : List Char)
    (h : ∀ c ∈ page, isSpace c = true) :
    splitIntoSections page = if page.length ≤ 1000 then [] else [['.']] :=
  splitIntoSections_whitespace_core page h

/-- Concrete whitespace-only page of 1001 characters for C9. -/
def c9Page : List Char := List.replicate 1001 ' '

/-- C9 (counterexample): the claim "every whitespace-only page yields zero
sections, including whitespace-only pages longer than 1000 characters" fails
at a page of 1001 spaces, for which the segmenter returns the non-empty
section list `["."]`. -/
theorem splitIntoSections_whitespace_counterexample :
    splitIntoSections c9Page ≠ [] := by
  have h : ∀ c ∈ c9Page, isSpace c = true := by
    intro c hc
    rw [List.eq_of_mem_replicate hc]
    decide
  have hcore := splitIntoSections_whitespace_core c9Page h
  have hlen : c9Page.length = 1001 := List.length_replicate 1001 ' '
  rw [hcore, hlen, if_neg (by decide)]
  decide

/-- Witness for the amended C9 at `c9Page` (1001 spaces, hitting the
length-fallback branch). -/
theorem splitIntoSections_whitespace_witness :
    (∀ c ∈ c9Page, isSpace c = true)
      ∧ splitIntoSections c9Page = if c9Page.length ≤ 1000 then [] else [['.']] :=
  ⟨fun c hc => by rw [List.eq_of_mem_replicate hc]; decide,
    splitIntoSections_whitespace c9Page
      (fun c hc => by rw [List.eq_of_mem_replicate hc]; decide)⟩

theorem filter_mem_map_snd_of_subset (sentences : List (List Char))
    (top : List (Nat × List Char)) (hnd : sentences.Nodup)
    (hsub : ∀ p ∈ top, p ∈ sentences.enum) :
    sentences.filter (fun s => decide (s ∈ top.map (fun p => p.2)))
      = (sentences.enum.filter (fun p => decide (p ∈ top))).map (fun p => p.2) := by
  have hmapnd : (sentences.enum.map (fun p : Nat × List Char => p.2)).Nodup := by
    have he : sentences.enum.map (fun p : Nat × List Char => p.2) = sentences :=
      List.enum_map_snd sentences
    rwa [he]
  have hinj : ∀ p ∈ sentences.enum, ∀ q ∈ sentences.enum, p.2 = q.2 → p = q :=
    fun p hp q hq h2 => List.inj_on_of_nodup_map hmapnd hp hq h2
  have hcong : ∀ p ∈ sentences.enum,
      (decide (p ∈ top)) = (decide (p.2 ∈ top.map (fun p => p.2))) := by
    intro p hp
    rw [decide_eq_decide]
    constructor
    · intro hin
      exact List.mem_map_of_mem _ hin
    · intro hin
      obtain ⟨q, hq, hq2⟩ := List.mem_map.mp hin
      have heq := hinj q (hsub q hq) p hp hq2
      rwa [heq] at hq
  rw [List.filter_congr hcong]
  have hfm := List.filter_map (p := fun s => decide (s ∈ top.map (fun p => p.2)))
    (fun p : Nat × List Char => p.2) sentences.enum
  have he : sentences.enum.map (fun p : Nat × List Char => p.2) = sentences :=
    List.enum_map_snd sentences
  rw [he] at hfm
  simp only [Function.comp_def] at hfm
  exact hfm

/-- C4 (amended): when the (filtered, stripped) sentences of the section are
pairwise distinct and more than 3, the summary is exactly the 3
highest-scoring sentence occurrences (ties broken by original sentence
order), re-ordered to their original position and joined by single spaces.
With duplicate sentence strings the code's membership test
(`if sentence in selected_sentences`) re-admits every original occurrence of
a selected string, so the summary can contain more than 3 sentences. -/
theorem genSummary_eq_specSummary_of_nodup (text : List Char)
    (keywords : List (List Char)) (hnd : (splitSentences text).Nodup)
    (hlen : 3 < (splitSentences text).length) :
    genSummary text keywords = specSummary text keywords := by
  have htext : ¬ text = [] := fun h => absurd (h ▸ hlen) (by decide)
  rw [genSummary, if_neg htext, if_neg (not_le.mpr hlen)]
  have h1 : (splitSentences text).map (fun s => (s, scoreSentence s keywords))
      = (splitSentences text).enum.map
          (fun p => (p.2, scoreSentence p.2 keywords)) := by
    conv_lhs => rw [← List.enum_map_snd (splitSentences text)]
    rw [List.map_map]
    rfl
  have hsel : ((sortDescBy (fun p : List Char × ℚ => p.2)
        ((splitSentences text).map (fun s => (s, scoreSentence s keywords)))).take 3).map
          (fun p => p.1)
      = ((sortDescBy (fun p : Nat × List Char => scoreSentence p.2 keywords)
            (splitSentences text).enum).take 3).map (fun p => p.2) := by
    rw [h1, sortDescBy_map (fun p : Nat × List Char => scoreSentence p.2 keywords)
      (fun p : List Char × ℚ => p.2)
      (fun p => (p.2, scoreSentence p.2 keywords)) (fun a => rfl),
      ← List.map_take, List.map_map]
    rfl
  show joinSp (List.filter
      (fun s => decide (s ∈ List.map (fun p => p.1)
        (List.take 3 (sortDescBy (fun p : List Char × ℚ => p.2)
          (List.map (fun s => (s, scoreSentence s keywords)) (splitSentences text))))))
      (splitSentences text)) = specSummary text keywords
  rw [hsel, specSummary]
  exact congrArg joinSp (filter_mem_map_snd_of_subset (splitSentences text)
    ((sortDescBy (fun p : Nat × List Char => scoreSentence p.2 keywords)
        (splitSentences text).enum).take 3) hnd
    (fun p hp => (sortDescBy_perm _ _).mem_iff.mp (List.mem_of_mem_take hp)))

/-- Sentence of 22 'a' characters. -/
def c4sA : List Char := List.replicate 22 'a'

/-- Sentence of 22 'b' characters. -/
def c4sB : List Char := List.replicate 22 'b'

/-- Sentence of 22 'c' characters. -/
def c4sC : List Char := List.replicate 22 'c'

/-- Sentence of 22 'd' characters. -/
def c4sD : List Char := List.replicate 22 'd'

/-- Sentence of 22 'e' characters. -/
def c4sE : List Char := List.replicate 22 'e'

/-- Section text with sentences A, B, C, D, A — the first sentence string
occurs again in fifth position. -/
def c4TextDup : List Char :=
  c4sA ++ '.' :: ' ' :: (c4sB ++ '.' :: ' ' :: (c4sC ++ '.' :: ' '
    :: (c4sD ++ '.' :: ' ' :: c4sA)))

/-- Section text with five pairwise distinct sentences A, B, C, D, E. -/
def c4TextNodup : List Char :=
  c4sA ++ '.' :: ' ' :: (c4sB ++ '.' :: ' ' :: (c4sC ++ '.' :: ' '
    :: (c4sD ++ '.' :: ' ' :: c4sE)))

/-- C4 (counterexample): on a section whose five sentences are A, B, C, D, A
(all scores equal, so the selected top 3 are A, B, C), the code's summary is
"A B C A" — the unselected duplicate occurrence of A is re-admitted by the
string-membership test — and not the claimed "A B C" (exactly the 3
highest-scoring sentences in original order). -/
theorem genSummary_ne_specSummary :
    genSummary c4TextDup [] ≠ specSummary c4TextDup [] := by decide

/-- Witness for the amended C4 at `c4TextNodup` (five distinct sentences). -/
theorem genSummary_eq_specSummary_of_nodup_witness :
    (splitSentences c4TextNodup).Nodup
      ∧ 3 < (splitSentences c4TextNodup).length
      ∧ genSummary c4TextNodup [] = specSummary c4TextNodup [] :=
  ⟨by decide, by decide,
    genSummary_eq_specSummary_of_nodup c4TextNodup [] (by decide) (by decide)⟩

end DocIntel
